import Mathlib

/-!
Verification of the discounted-cash-flow engine of `src/app.js`.

The engine (`npv`, `irr`, `paybackPeriod`, `discountedCashflows`,
`buildCashflows`) is shallowly embedded here.  JavaScript numbers are
modelled by `ENum`: either an exact rational value or one of the
IEEE-style non-finite values `inf`, `ninf`, `nan`.  Arithmetic and
comparisons follow the JavaScript semantics for these extended values
(NaN contagion, `Infinity - Infinity = NaN`, division of a nonzero
number by zero giving a signed infinity, every comparison with NaN
false, `Math.pow(x, 0) = 1` for every `x` including NaN), while finite
arithmetic is exact rational arithmetic — the idealisation under which
the specification's numeric statements are read.  Decimal literals of
the source (`-0.9999`, `1e-8`, `1e-6`) become the corresponding exact
rationals.
-/

/-- Extended number: the value of a JavaScript number as used by the
engine — an exact rational, `+Infinity`, `-Infinity`, or `NaN`. -/
inductive ENum : Type where
  | fin : ℚ → ENum
  | inf : ENum
  | ninf : ENum
  | nan : ENum
deriving DecidableEq, Repr

namespace ENum

/-- JavaScript `isFinite`. -/
def isFinite : ENum → Bool
  | fin _ => true
  | _ => false

/-- JavaScript unary minus. -/
def neg : ENum → ENum
  | fin q => fin (-q)
  | inf => ninf
  | ninf => inf
  | nan => nan

/-- JavaScript `+` on numbers (exact on finite values). -/
def add : ENum → ENum → ENum
  | nan, _ => nan
  | _, nan => nan
  | inf, ninf => nan
  | ninf, inf => nan
  | inf, _ => inf
  | _, inf => inf
  | ninf, _ => ninf
  | _, ninf => ninf
  | fin a, fin b => fin (a + b)

/-- JavaScript `*` on numbers (exact on finite values). -/
def mul : ENum → ENum → ENum
  | nan, _ => nan
  | _, nan => nan
  | inf, inf => inf
  | inf, ninf => ninf
  | ninf, inf => ninf
  | ninf, ninf => inf
  | inf, fin b => if b = 0 then nan else if 0 < b then inf else ninf
  | fin a, inf => if a = 0 then nan else if 0 < a then inf else ninf
  | ninf, fin b => if b = 0 then nan else if 0 < b then ninf else inf
  | fin a, ninf => if a = 0 then nan else if 0 < a then ninf else inf
  | fin a, fin b => fin (a * b)

/-- JavaScript `/` on numbers.  The zero divisor arising in the engine is
the positive zero `Math.pow(0, t)`, so `x / 0` carries the sign of `x`
(`0 / 0` is NaN). -/
def div : ENum → ENum → ENum
  | nan, _ => nan
  | _, nan => nan
  | inf, inf => nan
  | inf, ninf => nan
  | ninf, inf => nan
  | ninf, ninf => nan
  | inf, fin b => if 0 ≤ b then inf else ninf
  | ninf, fin b => if 0 ≤ b then ninf else inf
  | fin _, inf => fin 0
  | fin _, ninf => fin 0
  | fin a, fin b =>
    if b = 0 then (if a = 0 then nan else if 0 < a then inf else ninf)
    else fin (a / b)

instance : Neg ENum := ⟨ENum.neg⟩

instance : Add ENum := ⟨ENum.add⟩

instance : Mul ENum := ⟨ENum.mul⟩

instance : Div ENum := ⟨ENum.div⟩

/-- JavaScript `-` on numbers, which agrees with adding the negation. -/
def sub (a b : ENum) : ENum := a + (-b)

instance : Sub ENum := ⟨ENum.sub⟩

/-- JavaScript `Math.pow` restricted to natural exponents, as used with
the loop counter `t`; `Math.pow(x, 0) = 1` for every `x`, NaN included. -/
def pow (b : ENum) : Nat → ENum
  | 0 => fin 1
  | Nat.succ n =>
    match b with
    | nan => nan
    | inf => inf
    | ninf => if (n + 1) % 2 = 0 then inf else ninf
    | fin q => fin (q ^ (n + 1))

/-- JavaScript `Math.abs`. -/
def abs : ENum → ENum
  | fin q => fin |q|
  | inf => inf
  | ninf => inf
  | nan => nan

end ENum

/-- JavaScript `<` on numbers: false whenever either side is NaN. -/
def jlt : ENum → ENum → Bool
  | ENum.nan, _ => false
  | _, ENum.nan => false
  | ENum.inf, _ => false
  | ENum.ninf, ENum.ninf => false
  | ENum.ninf, _ => true
  | ENum.fin _, ENum.ninf => false
  | ENum.fin _, ENum.inf => true
  | ENum.fin a, ENum.fin b => decide (a < b)

/-- JavaScript `<=` on numbers: false whenever either side is NaN. -/
def jle : ENum → ENum → Bool
  | ENum.nan, _ => false
  | _, ENum.nan => false
  | ENum.ninf, _ => true
  | _, ENum.ninf => false
  | _, ENum.inf => true
  | ENum.inf, _ => false
  | ENum.fin a, ENum.fin b => decide (a ≤ b)

/-- JavaScript `>` on numbers. -/
def jgt (a b : ENum) : Bool := jlt b a

/-- JavaScript `>=` on numbers. -/
def jge (a b : ENum) : Bool := jle b a

/-- JavaScript `===` on numbers: false whenever either side is NaN. -/
def jeq : ENum → ENum → Bool
  | ENum.fin a, ENum.fin b => decide (a = b)
  | ENum.inf, ENum.inf => true
  | ENum.ninf, ENum.ninf => true
  | _, _ => false

/-- Accumulating loop of `npv` (`src/app.js` lines 9–16): running sum
`s`, period counter `t`, adding `cashflows[t] / Math.pow(1 + rate, t)`
left to right. -/
def npvAux (rate : ENum) : List ENum → Nat → ENum → ENum
  | [], _, s => s
  | cf :: rest, t, s => npvAux rate rest (t + 1) (s + cf / (ENum.fin 1 + rate).pow t)

/-- `npv(rate, cashflows)` of `src/app.js` (lines 9–16): the sum of
`cashflows[t] / (1 + rate)^t` over all periods, `t` starting at 0. -/
def npv (rate : ENum) (cashflows : List ENum) : ENum :=
  npvAux rate cashflows 0 (ENum.fin 0)

/-- The bisection loop of `irr` (`src/app.js` lines 40–52) with the
remaining iteration budget as fuel; on exhausted fuel the midpoint of
the final bracket is returned (line 53). -/
def irrLoop (f : ℚ → ENum) : Nat → ℚ → ℚ → ENum → ENum → ENum
  | 0, lo, hi, _, _ => ENum.fin ((lo + hi) / 2)
  | Nat.succ n, lo, hi, flo, fhi =>
    let mid : ℚ := (lo + hi) / 2
    let fmid := f mid
    if !fmid.isFinite then ENum.nan
    else if jlt fmid.abs (ENum.fin (1 / 100000000)) then ENum.fin mid
    else if jle (flo * fmid) (ENum.fin 0) then irrLoop f n lo mid flo fmid
    else irrLoop f n mid hi fmid fhi

/-- `irr(cashflows)` of `src/app.js` (lines 18–54): bisection on the
bracket `[-0.9999, 10]`, with one attempted expansion of the upper
bound to `50`, at most `120` iterations, and NaN for failure. -/
def irr (cashflows : List ENum) : ENum :=
  let f : ℚ → ENum := fun r => npv (ENum.fin r) cashflows
  let lo : ℚ := -9999 / 10000
  let hi : ℚ := 10
  let flo := f lo
  let fhi := f hi
  if !flo.isFinite || !fhi.isFinite then ENum.nan
  else if jeq flo (ENum.fin 0) then ENum.fin lo
  else if jeq fhi (ENum.fin 0) then ENum.fin hi
  else if jgt (flo * fhi) (ENum.fin 0) then
    let fhi2 := f 50
    if !fhi2.isFinite || jgt (flo * fhi2) (ENum.fin 0) then ENum.nan
    else irrLoop f 120 lo 50 flo fhi2
  else irrLoop f 120 lo hi flo fhi

/-- The accumulation loop of `paybackPeriod` (`src/app.js` lines 62–72):
`t` is the current period index, `prev` the cumulative sum before it. -/
def paybackLoop : List ENum → Nat → ENum → ENum
  | [], _, _ => ENum.nan
  | cf :: rest, t, prev =>
    let cum := prev + cf
    if jge cum (ENum.fin 0) then
      if t = 0 then ENum.fin 0
      else ENum.fin ((t : ℚ) - 1) + (ENum.fin 0 - prev) / cf
    else paybackLoop rest (t + 1) cum

/-- `paybackPeriod(cashflows)` of `src/app.js` (lines 56–74):
undiscounted payback with linear interpolation within the year, NaN for
the empty series and for a series that never pays back. -/
def paybackPeriod (cashflows : List ENum) : ENum :=
  match cashflows with
  | [] => ENum.nan
  | c0 :: _ =>
    if jge c0 (ENum.fin 0) then ENum.fin 0
    else paybackLoop cashflows 0 (ENum.fin 0)

/-- The indexed map of `discountedCashflows` (`src/app.js` line 77). -/
def dcfAux (rate : ENum) : List ENum → Nat → List ENum
  | [], _ => []
  | cf :: rest, t => cf / (ENum.fin 1 + rate).pow t :: dcfAux rate rest (t + 1)

/-- `discountedCashflows(rate, cashflows)` of `src/app.js` (lines
76–78): element `t` is `cashflows[t] / Math.pow(1 + rate, t)`. -/
def discountedCashflows (rate : ENum) (cashflows : List ENum) : List ENum :=
  dcfAux rate cashflows 0

/-- Project parameters consumed by `buildCashflows` (`src/app.js`
lines 81–100).  The horizon `years` is kept as an exact rational: the
loop `for (let t = 1; t <= years; t++)` then runs `max 0 ⌊years⌋`
times. -/
structure Params where
  capGeo : ENum
  capInd : ENum
  capPv : ENum
  benefitTax : ENum
  benefitEnergy : ENum
  years : ℚ

/-- `buildCashflows(params)` of `src/app.js` (lines 81–100): period 0
is `-capex + benefitTax`; the loop for `t = 1 .. t ≤ years` pushes
`benefitEnergy` once per integer `t` in that range, i.e.
`(⌊years⌋).toNat` times. -/
def buildCashflows (p : Params) : List ENum :=
  let capex := p.capGeo + p.capInd + p.capPv
  (-capex + p.benefitTax) :: List.replicate (⌊p.years⌋).toNat p.benefitEnergy

/-- Project parameters with the horizon itself a JavaScript number, for
reasoning about non-finite `years`. -/
structure ParamsE where
  capGeo : ENum
  capInd : ENum
  capPv : ENum
  benefitTax : ENum
  benefitEnergy : ENum
  years : ENum

/-- Number of iterations of the loop `for (let t = 1; t <= years; t++)`
for an extended-number bound: `none` models the loop that never exits
(`t <= Infinity` holds for every `t`); comparisons with NaN are false,
so a NaN bound gives zero iterations, as does any bound below 1. -/
def loopCount : ENum → Option Nat
  | ENum.fin q => some (⌊q⌋).toNat
  | ENum.inf => none
  | ENum.ninf => some 0
  | ENum.nan => some 0

/-- `buildCashflows` with an extended-number `years`; `none` models the
non-terminating run on `years = Infinity`. -/
def buildCashflowsE (p : ParamsE) : Option (List ENum) :=
  (loopCount p.years).map fun n =>
    (-(p.capGeo + p.capInd + p.capPv) + p.benefitTax) :: List.replicate n p.benefitEnergy

/-- The plain left-to-right sum of a series (the reference value for
`netPresentValue(0, S)` in the specification's testable properties). -/
def sumE (cashflows : List ENum) : ENum :=
  List.foldl (· + ·) (ENum.fin 0) cashflows

/-- State of the specification's bisection (§4.3): the bracket and the
function values at its endpoints. -/
structure BState where
  lo : ℚ
  hi : ℚ
  flo : ENum
  fhi : ENum

/-- One iteration of the specification's step 5: evaluate at the
midpoint; non-finite value fails, `|f(mid)| < 1e-8` converges, product
`f(lo)·f(mid) ≤ 0` moves the upper bound to the midpoint (keeping `lo`,
`fhi := fmid`), otherwise the lower bound moves (keeping `hi`,
`flo := fmid`).  `Sum.inr` is a final answer, `Sum.inl` the next
state. -/
def bisectStep (f : ℚ → ENum) (s : BState) : BState ⊕ ENum :=
  let mid : ℚ := (s.lo + s.hi) / 2
  let fmid := f mid
  if fmid.isFinite = false then Sum.inr ENum.nan
  else if jlt fmid.abs (ENum.fin (1 / 100000000)) then Sum.inr (ENum.fin mid)
  else if jle (s.flo * fmid) (ENum.fin 0) then Sum.inl ⟨s.lo, mid, s.flo, fmid⟩
  else Sum.inl ⟨mid, s.hi, fmid, s.fhi⟩

/-- Up to `n` iterations of the specification's step 5, and, per step 6,
the midpoint of the final bracket once the budget is exhausted. -/
def bisectRun (f : ℚ → ENum) : Nat → BState → ENum
  | 0, s => ENum.fin ((s.lo + s.hi) / 2)
  | Nat.succ n, s =>
    match bisectStep f s with
    | Sum.inr r => r
    | Sum.inl s2 => bisectRun f n s2

/-- The IRR solver exactly as the specification §4.3 words it, step by
step: (1) initial bracket `lo = -0.9999`, `hi = 10`; (2) fail if either
endpoint value is non-finite; (3) an exactly-zero endpoint value is
returned at once; (4) on same signs (product `> 0`) one expansion to
`hi = 50`, failing if the new value is non-finite or still of the same
sign; (5)–(6) up to 120 bisection iterations via `bisectRun`. -/
def irrSpec (cashflows : List ENum) : ENum :=
  let f : ℚ → ENum := fun r => npv (ENum.fin r) cashflows
  let lo : ℚ := -9999 / 10000
  let hi : ℚ := 10
  let flo := f lo
  let fhi := f hi
  if flo.isFinite = false ∨ fhi.isFinite = false then ENum.nan
  else if flo = ENum.fin 0 then ENum.fin lo
  else if fhi = ENum.fin 0 then ENum.fin hi
  else if jgt (flo * fhi) (ENum.fin 0) = true then
    let fhi2 := f 50
    if fhi2.isFinite = false ∨ jgt (flo * fhi2) (ENum.fin 0) = true then ENum.nan
    else bisectRun f 120 ⟨lo, 50, flo, fhi2⟩
  else bisectRun f 120 ⟨lo, hi, flo, fhi⟩

/-- The specification's §4.4 search: starting from the cumulative total
`prev` just before period `t` (with every earlier total negative), find
the first period whose running total becomes `≥ 0` and interpolate
linearly inside it, `(t − 1) + (0 − prev) / cf_t`; if the total never
reaches `≥ 0`, the sentinel NaN. -/
def searchRecovery : List ENum → Nat → ENum → ENum
  | [], _, _ => ENum.nan
  | cf :: rest, t, prev =>
    if jge (prev + cf) (ENum.fin 0) then ENum.fin ((t : ℚ) - 1) + (ENum.fin 0 - prev) / cf
    else searchRecovery rest (t + 1) (prev + cf)

/-- The payback period exactly as the specification §4.4 words it: NaN
for the empty series; 0 when the period-0 flow is already `≥ 0`;
otherwise the interpolated first recovery period, searched from period
1 with `prev` the period-0 flow; NaN when never recovered. -/
def paybackSpec (cashflows : List ENum) : ENum :=
  match cashflows with
  | [] => ENum.nan
  | c0 :: rest =>
    if jge c0 (ENum.fin 0) then ENum.fin 0
    else searchRecovery rest 1 c0

theorem ENum.pow_zero (b : ENum) : b.pow 0 = ENum.fin 1 := rfl

theorem ENum.div_one (x : ENum) : x / ENum.fin 1 = x := by
  show ENum.div x (ENum.fin 1) = x
  cases x <;> norm_num [ENum.div]

theorem ENum.zero_add_left (x : ENum) : ENum.fin 0 + x = x := by
  show ENum.add (ENum.fin 0) x = x
  cases x <;> norm_num [ENum.add]

theorem ENum.fin_add_fin (a b : ℚ) : ENum.fin a + ENum.fin b = ENum.fin (a + b) := rfl

theorem ENum.fin_mul_fin (a b : ℚ) : ENum.fin a * ENum.fin b = ENum.fin (a * b) := rfl

theorem ENum.one_pow_enum (t : Nat) : (ENum.fin 1).pow t = ENum.fin 1 := by
  cases t with
  | zero => rfl
  | succ n => simp [ENum.pow]

theorem dcfAux_length (rate : ENum) : ∀ (S : List ENum) (t : Nat),
    (dcfAux rate S t).length = S.length := by
  intro S
  induction S with
  | nil => intro t; rfl
  | cons x r ih => intro t; simpa [dcfAux] using ih (t + 1)

/-- C7: for every rate (non-finite and below `-100%` included) the
discounted series has the same length as its source, and its element 0
is exactly the source's element 0 (division by `(1+rate)^0 = 1` is the
identity, even for NaN rates since `Math.pow(x, 0) = 1`). -/
theorem discountedCashflows_length_head (rate : ENum) (S : List ENum) :
    (discountedCashflows rate S).length = S.length ∧
    (discountedCashflows rate S)[0]? = S[0]? := by
  constructor
  · exact dcfAux_length rate S 0
  · cases S with
    | nil => rfl
    | cons x r =>
      show (dcfAux rate (x :: r) 0)[0]? = _
      simp [dcfAux, ENum.pow_zero, ENum.div_one]

theorem npvAux_zero_rate (S : List ENum) : ∀ (t : Nat) (acc : ENum),
    npvAux (ENum.fin 0) S t acc = List.foldl (· + ·) acc S := by
  induction S with
  | nil => intro t acc; rfl
  | cons x r ih =>
    intro t acc
    have h1 : (ENum.fin 1 + ENum.fin 0).pow t = ENum.fin 1 := by
      rw [ENum.fin_add_fin]
      norm_num [ENum.one_pow_enum]
    simp only [npvAux, h1, ENum.div_one, List.foldl]
    exact ih (t + 1) (acc + x)

/-- C8: at zero discount rate the net present value is the plain
left-to-right sum of the series (exactly, NaN and infinite elements
included, since each term is divided by `1^t = 1`). -/
theorem npv_zero_eq_sum (S : List ENum) : npv (ENum.fin 0) S = sumE S :=
  npvAux_zero_rate S 0 (ENum.fin 0)

/-- C4: for an integer horizon `years = n ≥ 1` the built series has
length `n + 1`, element 0 is `-(capGeo + capInd + capPv) + benefitTax`,
and every element of periods `1..n` is `benefitEnergy`. -/
theorem buildCashflows_series (g i v tx e : ℚ) (n : ℕ) (p : Params)
    (hp : p = ⟨ENum.fin g, ENum.fin i, ENum.fin v, ENum.fin tx, ENum.fin e, (n : ℚ)⟩)
    (hn : 1 ≤ n) :
    (buildCashflows p).length = n + 1 ∧
    (buildCashflows p)[0]? = some (ENum.fin (-(g + i + v) + tx)) ∧
    ∀ t : ℕ, 1 ≤ t → t ≤ n → (buildCashflows p)[t]? = some (ENum.fin e) := by
  subst hp
  have hfl : (⌊(n : ℚ)⌋).toNat = n := by
    rw [Int.floor_natCast]
    exact Int.toNat_natCast n
  refine ⟨?_, ?_, ?_⟩
  · simp [buildCashflows, hfl]
  · show (_ :: _)[0]? = _
    rw [List.getElem?_cons_zero]
    congr 1
  · intro t h1 h2
    obtain ⟨s, rfl⟩ : ∃ s, t = s + 1 := ⟨t - 1, (Nat.succ_pred_eq_of_pos h1).symm⟩
    show (_ :: _)[s + 1]? = _
    rw [List.getElem?_cons_succ, hfl]
    exact List.getElem?_replicate_of_lt (by omega)

/-- Closed instance of C4 at the specification's end-to-end scenario:
capex `4314 + 2331 + 0`, tax benefit `4818`, energy benefit `337`,
25 years: 26 periods, period 0 equal to `-1827`, periods 1 and 25 equal
to `337`. -/
theorem buildCashflows_series_witness :
    (buildCashflows ⟨ENum.fin 4314, ENum.fin 2331, ENum.fin 0, ENum.fin 4818,
        ENum.fin 337, (25 : ℚ)⟩).length = 26 ∧
    (buildCashflows ⟨ENum.fin 4314, ENum.fin 2331, ENum.fin 0, ENum.fin 4818,
        ENum.fin 337, (25 : ℚ)⟩)[0]? = some (ENum.fin (-1827)) ∧
    (buildCashflows ⟨ENum.fin 4314, ENum.fin 2331, ENum.fin 0, ENum.fin 4818,
        ENum.fin 337, (25 : ℚ)⟩)[25]? = some (ENum.fin 337) := by
  obtain ⟨h1, h2, h3⟩ :=
    buildCashflows_series 4314 2331 0 4818 337 25
      ⟨ENum.fin 4314, ENum.fin 2331, ENum.fin 0, ENum.fin 4818, ENum.fin 337, (25 : ℚ)⟩
      (by simp) (by norm_num)
  refine ⟨h1, ?_, h3 25 (by norm_num) (by norm_num)⟩
  rw [h2]
  norm_num

/-- C6 (amended): the built series always has length
`1 + max 0 ⌊years⌋` — hence `years + 1` exactly when `years` is a
natural number, while a negative, fractional, or zero horizon still
produces the period-0 entry alone or a shorter series than `years + 1`
would demand. -/
theorem buildCashflows_length (p : Params) :
    (buildCashflows p).length = 1 + (⌊p.years⌋).toNat ∧
    (∀ n : ℕ, p.years = (n : ℚ) → (buildCashflows p).length = n + 1) := by
  constructor
  · simp [buildCashflows, Nat.add_comm]
  · intro n hn
    simp [buildCashflows, hn, Int.floor_natCast]

/-- Closed instance of C6 (amended) at an all-zero parameter record
with a 1-year horizon: the output length is `1 + 1`. -/
theorem buildCashflows_length_witness :
    (buildCashflows ⟨ENum.fin 0, ENum.fin 0, ENum.fin 0, ENum.fin 0, ENum.fin 0,
        (1 : ℚ)⟩).length = 2 :=
  (buildCashflows_length _).2 1 rfl

/-- Counterexample to C6 as stated: for `years = -1` the output length
is 1, not `years + 1 = 0`; the "regardless of the numeric values
supplied (including non-integer, zero, or negative years)" claim fails
on negative (and on fractional) horizons. -/
theorem buildCashflows_length_cex :
    ¬(((buildCashflows ⟨ENum.fin 0, ENum.fin 0, ENum.fin 0, ENum.fin 0, ENum.fin 0,
        (-1 : ℚ)⟩).length : ℚ) = (-1 : ℚ) + 1) := by
  have h : (buildCashflows ⟨ENum.fin 0, ENum.fin 0, ENum.fin 0, ENum.fin 0, ENum.fin 0,
      (-1 : ℚ)⟩).length = 1 := by
    have : (⌊(-1 : ℚ)⌋).toNat = 0 := by norm_num
    simp [buildCashflows, this]
  rw [h]
  norm_num

theorem paybackLoop_eq_search : ∀ (rest : List ENum) (t : Nat) (prev : ENum), 1 ≤ t →
    paybackLoop rest t prev = searchRecovery rest t prev := by
  intro rest
  induction rest with
  | nil => intro t prev _; rfl
  | cons cf r ih =>
    intro t prev ht
    show (if jge (prev + cf) (ENum.fin 0) = true then _ else _) = _
    rw [searchRecovery]
    by_cases h : jge (prev + cf) (ENum.fin 0) = true
    · simp only [h, if_true]
      have : t ≠ 0 := by omega
      simp [this]
    · simp only [Bool.not_eq_true] at h
      simp only [h, Bool.false_eq_true, if_false]
      exact ih (t + 1) (prev + cf) (by omega)

/-- C5: `paybackPeriod` coincides with the specification's reference
definition (`paybackSpec`) on every series, and whenever the cumulative
total before a period is negative while adding that period's flow makes
it non-negative, the interpolation fraction `(0 − prev) / cf` lies in
`[0, 1]`. -/
theorem paybackPeriod_eq_spec :
    (∀ S : List ENum, paybackPeriod S = paybackSpec S) ∧
    (∀ (q : ℚ) (c : ENum), jlt (ENum.fin q) (ENum.fin 0) = true →
      jge (ENum.fin q + c) (ENum.fin 0) = true →
      jle (ENum.fin 0) ((ENum.fin 0 - ENum.fin q) / c) = true ∧
      jle ((ENum.fin 0 - ENum.fin q) / c) (ENum.fin 1) = true) := by
  constructor
  · intro S
    cases S with
    | nil => rfl
    | cons c0 rest =>
      show (if jge c0 (ENum.fin 0) = true then _ else _) =
        (if jge c0 (ENum.fin 0) = true then _ else _)
      by_cases h : jge c0 (ENum.fin 0) = true
      · simp [h]
      · simp only [Bool.not_eq_true] at h
        simp only [h, Bool.false_eq_true, if_false]
        show paybackLoop (c0 :: rest) 0 (ENum.fin 0) = _
        rw [paybackLoop]
        simp only [ENum.zero_add_left, h, Bool.false_eq_true, if_false]
        exact paybackLoop_eq_search rest 1 c0 le_rfl
  · intro q c hq hqc
    have hq' : q < 0 := by
      have := hq
      simp only [jlt, decide_eq_true_eq] at this
      exact this
    have hsub : ENum.fin 0 - ENum.fin q = ENum.fin (-q) := by
      show ENum.fin 0 + ENum.fin (-q) = _
      rw [ENum.fin_add_fin]
      norm_num
    cases c with
    | fin c' =>
      have hc : 0 ≤ q + c' := by
        rw [ENum.fin_add_fin] at hqc
        simpa [jge, jle] using hqc
      have hcpos : 0 < c' := by linarith
      rw [hsub]
      have hdiv : ENum.fin (-q) / ENum.fin c' = ENum.fin (-q / c') := by
        show ENum.div _ _ = _
        simp [ENum.div, ne_of_gt hcpos]
      rw [hdiv]
      constructor
      · simp only [jle, decide_eq_true_eq]
        apply div_nonneg <;> linarith
      · simp only [jle, decide_eq_true_eq]
        rw [div_le_one hcpos]
        linarith
    | inf =>
      rw [hsub]
      constructor <;> simp [jle, HDiv.hDiv, Div.div, ENum.div]
    | ninf => simp [jge, jle, HAdd.hAdd, Add.add, ENum.add] at hqc
    | nan => simp [jge, jle, HAdd.hAdd, Add.add, ENum.add] at hqc

/-- Closed instance of C5 at the specification's interpolation example
`[-100, 40, 40, 40]` (payback 2.5) and its crossing step
`prev = -20`, `cf = 40` (fraction `1/2 ∈ [0,1]`). -/
theorem paybackPeriod_eq_spec_witness :
    paybackPeriod [ENum.fin (-100), ENum.fin 40, ENum.fin 40, ENum.fin 40] =
      paybackSpec [ENum.fin (-100), ENum.fin 40, ENum.fin 40, ENum.fin 40] ∧
    (jle (ENum.fin 0) ((ENum.fin 0 - ENum.fin (-20)) / ENum.fin 40) = true ∧
      jle ((ENum.fin 0 - ENum.fin (-20)) / ENum.fin 40) (ENum.fin 1) = true) :=
  ⟨paybackPeriod_eq_spec.1 _,
    paybackPeriod_eq_spec.2 (-20) (ENum.fin 40) (by with_unfolding_all decide)
      (by with_unfolding_all decide)⟩

theorem jeq_fin_zero (x : ENum) : jeq x (ENum.fin 0) = true ↔ x = ENum.fin 0 := by
  cases x <;> simp [jeq]

theorem irrLoop_eq_bisectRun (f : ℚ → ENum) : ∀ (n : Nat) (lo hi : ℚ) (flo fhi : ENum),
    irrLoop f n lo hi flo fhi = bisectRun f n ⟨lo, hi, flo, fhi⟩ := by
  intro n
  induction n with
  | zero => intro lo hi flo fhi; rfl
  | succ n ih =>
    intro lo hi flo fhi
    rw [irrLoop, bisectRun]
    simp only [bisectStep]
    cases hfin : (f ((lo + hi) / 2)).isFinite with
    | false => simp [hfin]
    | true =>
      simp only [hfin, Bool.not_true, Bool.false_eq_true, if_false]
      rw [if_neg (show ¬(true = false) by simp)]
      by_cases htol : jlt (f ((lo + hi) / 2)).abs (ENum.fin (1 / 100000000)) = true
      · rw [if_pos htol, if_pos htol]
      · rw [if_neg htol, if_neg htol]
        by_cases hbr : jle (flo * f ((lo + hi) / 2)) (ENum.fin 0) = true
        · rw [if_pos hbr, if_pos hbr]
          exact ih lo ((lo + hi) / 2) flo (f ((lo + hi) / 2))
        · rw [if_neg hbr, if_neg hbr]
          exact ih ((lo + hi) / 2) hi (f ((lo + hi) / 2)) fhi

/-- C2: the implementation's IRR solver is extensionally equal to the
specification's reference algorithm `irrSpec` (bracket `[-0.9999, 10]`,
one expansion to `50`, 120 bisection iterations with the
`|f(mid)| < 1e-8` convergence test, NaN on every failure path, and the
final bracket's midpoint on budget exhaustion). -/
theorem irr_eq_irrSpec (S : List ENum) : irr S = irrSpec S := by
  simp only [irr, irrSpec]
  cases hlo : (npv (ENum.fin (-9999 / 10000)) S).isFinite with
  | false => simp [hlo]
  | true =>
    cases hhi : (npv (ENum.fin 10) S).isFinite with
    | false => simp [hlo, hhi]
    | true =>
      simp only [hlo, hhi, Bool.not_true, Bool.or_self, Bool.false_eq_true, if_false]
      rw [if_neg (show ¬(true = false ∨ true = false) by simp)]
      by_cases hz1 : jeq (npv (ENum.fin (-9999 / 10000)) S) (ENum.fin 0) = true
      · rw [if_pos hz1, if_pos ((jeq_fin_zero _).mp hz1)]
      · rw [if_neg hz1, if_neg (fun h => hz1 ((jeq_fin_zero _).mpr h))]
        by_cases hz2 : jeq (npv (ENum.fin 10) S) (ENum.fin 0) = true
        · rw [if_pos hz2, if_pos ((jeq_fin_zero _).mp hz2)]
        · rw [if_neg hz2, if_neg (fun h => hz2 ((jeq_fin_zero _).mpr h))]
          by_cases hg : jgt (npv (ENum.fin (-9999 / 10000)) S * npv (ENum.fin 10) S)
              (ENum.fin 0) = true
          · rw [if_pos hg, if_pos hg]
            cases hf2 : (npv (ENum.fin 50) S).isFinite with
            | false => rw [if_pos (by simp), if_pos (Or.inl rfl)]
            | true =>
              by_cases hg2 : jgt (npv (ENum.fin (-9999 / 10000)) S * npv (ENum.fin 50) S)
                  (ENum.fin 0) = true
              · rw [if_pos (by simp [hg2]), if_pos (Or.inr hg2)]
              · rw [if_neg (by simp [hf2, hg2]), if_neg (by simp [hf2, hg2])]
                exact irrLoop_eq_bisectRun _ 120 _ _ _ _
          · rw [if_neg hg, if_neg hg]
            exact irrLoop_eq_bisectRun _ 120 _ _ _ _

theorem irrLoop_mem_range (f : ℚ → ENum) : ∀ (n : Nat) (lo hi : ℚ) (flo fhi : ENum) (q : ℚ),
    lo ≤ hi → -9999 / 10000 ≤ lo → hi ≤ 50 →
    irrLoop f n lo hi flo fhi = ENum.fin q → -9999 / 10000 ≤ q ∧ q ≤ 50 := by
  intro n
  induction n with
  | zero =>
    intro lo hi flo fhi q h1 h2 h3 hrun
    have hq : (lo + hi) / 2 = q := by
      have := hrun
      rwa [irrLoop, ENum.fin.injEq] at this
    constructor <;> [linarith [hq]; linarith [hq]]
  | succ n ih =>
    intro lo hi flo fhi q h1 h2 h3 hrun
    simp only [irrLoop] at hrun
    cases hfin : (f ((lo + hi) / 2)).isFinite with
    | false =>
      rw [hfin] at hrun
      simp at hrun
    | true =>
      rw [hfin] at hrun
      simp only [Bool.not_true, Bool.false_eq_true, if_false] at hrun
      by_cases htol : jlt (f ((lo + hi) / 2)).abs (ENum.fin (1 / 100000000)) = true
      · rw [if_pos htol, ENum.fin.injEq] at hrun
        constructor <;> [linarith [hrun]; linarith [hrun]]
      · rw [if_neg htol] at hrun
        by_cases hbr : jle (flo * f ((lo + hi) / 2)) (ENum.fin 0) = true
        · rw [if_pos hbr] at hrun
          exact ih lo ((lo + hi) / 2) flo (f ((lo + hi) / 2)) q (by linarith) h2
            (by linarith) hrun
        · rw [if_neg hbr] at hrun
          exact ih ((lo + hi) / 2) hi (f ((lo + hi) / 2)) fhi q (by linarith)
            (by linarith) h3 hrun

/-- C10: whenever the IRR solver returns a finite rate, that rate lies
in the closed interval `[-0.9999, 50]`: the solver only ever returns an
endpoint of, or a point inside, a bracket that starts at
`[-0.9999, 10]`, is widened at most once to `[-0.9999, 50]`, and only
shrinks thereafter. -/
theorem irr_finite_range (S : List ENum) (q : ℚ) (hirr : irr S = ENum.fin q) :
    -9999 / 10000 ≤ q ∧ q ≤ 50 := by
  simp only [irr] at hirr
  by_cases hfin : (!(npv (ENum.fin (-9999 / 10000)) S).isFinite ||
      !(npv (ENum.fin 10) S).isFinite) = true
  · rw [if_pos hfin] at hirr
    simp at hirr
  · rw [if_neg hfin] at hirr
    by_cases hz1 : jeq (npv (ENum.fin (-9999 / 10000)) S) (ENum.fin 0) = true
    · rw [if_pos hz1, ENum.fin.injEq] at hirr
      constructor <;> [linarith [hirr]; linarith [hirr]]
    · rw [if_neg hz1] at hirr
      by_cases hz2 : jeq (npv (ENum.fin 10) S) (ENum.fin 0) = true
      · rw [if_pos hz2, ENum.fin.injEq] at hirr
        constructor <;> [linarith [hirr]; linarith [hirr]]
      · rw [if_neg hz2] at hirr
        by_cases hg : jgt (npv (ENum.fin (-9999 / 10000)) S * npv (ENum.fin 10) S)
            (ENum.fin 0) = true
        · rw [if_pos hg] at hirr
          by_cases hg2 : (!(npv (ENum.fin 50) S).isFinite ||
              jgt (npv (ENum.fin (-9999 / 10000)) S * npv (ENum.fin 50) S)
                (ENum.fin 0)) = true
          · rw [if_pos hg2] at hirr
            simp at hirr
          · rw [if_neg hg2] at hirr
            exact irrLoop_mem_range _ 120 _ _ _ _ q (by norm_num) le_rfl (by norm_num) hirr
        · rw [if_neg hg] at hirr
          exact irrLoop_mem_range _ 120 _ _ _ _ q (by norm_num) le_rfl (by norm_num) hirr

/-- Closed instance of C10: on `[-10000, 1]` the solver returns the
finite rate `-0.9999` (the lower bracket endpoint, where the NPV is
exactly zero), which lies inside `[-0.9999, 50]`. -/
theorem irr_finite_range_witness :
    -9999 / 10000 ≤ (-9999 / 10000 : ℚ) ∧ (-9999 / 10000 : ℚ) ≤ 50 :=
  irr_finite_range [ENum.fin (-10000), ENum.fin 1] (-9999 / 10000) (by decide!)

theorem ENum.fin_pow (a : ℚ) (t : Nat) : (ENum.fin a).pow t = ENum.fin (a ^ t) := by
  cases t with
  | zero =>
    show ENum.fin 1 = ENum.fin (a ^ 0)
    norm_num
  | succ n => rfl

theorem ENum.fin_div_fin (a b : ℚ) (hb : b ≠ 0) :
    ENum.fin a / ENum.fin b = ENum.fin (a / b) := by
  show ENum.div _ _ = _
  simp [ENum.div, hb]

theorem ENum.inf_div_fin (b : ℚ) (hb : 0 ≤ b) : ENum.inf / ENum.fin b = ENum.inf := by
  show ENum.div _ _ = _
  simp [ENum.div, hb]

theorem ENum.fin_add_inf (a : ℚ) : ENum.fin a + ENum.inf = ENum.inf := rfl

theorem ENum.inf_add_fin (a : ℚ) : ENum.inf + ENum.fin a = ENum.inf := rfl

theorem ENum.inf_add_inf : ENum.inf + ENum.inf = ENum.inf := rfl

theorem jge_fin_zero_cases (x : ENum) (h : jge x (ENum.fin 0) = true) :
    x = ENum.inf ∨ ∃ qx : ℚ, x = ENum.fin qx ∧ 0 ≤ qx := by
  cases x with
  | fin q => exact Or.inr ⟨q, rfl, by simpa [jge, jle] using h⟩
  | inf => exact Or.inl rfl
  | ninf => simp [jge, jle] at h
  | nan => simp [jge, jle] at h

theorem jgt_fin_zero_cases (x : ENum) (h : jgt x (ENum.fin 0) = true) :
    x = ENum.inf ∨ ∃ qx : ℚ, x = ENum.fin qx ∧ 0 < qx := by
  cases x with
  | fin q => exact Or.inr ⟨q, rfl, by simpa [jgt, jlt] using h⟩
  | inf => exact Or.inl rfl
  | ninf => simp [jgt, jlt] at h
  | nan => simp [jgt, jlt] at h

theorem npvAux_inf (r : ℚ) (hr : 0 < 1 + r) : ∀ (S : List ENum) (t : Nat),
    (∀ x ∈ S, jge x (ENum.fin 0) = true) →
    npvAux (ENum.fin r) S t ENum.inf = ENum.inf := by
  intro S
  induction S with
  | nil => intro t _; rfl
  | cons x rest ih =>
    intro t hall
    have hx := hall x (by simp)
    have hrest : ∀ y ∈ rest, jge y (ENum.fin 0) = true := fun y hy => hall y (by simp [hy])
    show npvAux _ rest (t + 1) (ENum.inf + x / (ENum.fin 1 + ENum.fin r).pow t) = _
    have hterm : ENum.inf + x / (ENum.fin 1 + ENum.fin r).pow t = ENum.inf := by
      rw [ENum.fin_add_fin, ENum.fin_pow]
      rcases jge_fin_zero_cases x hx with rfl | ⟨qx, rfl, hqx⟩
      · rw [ENum.inf_div_fin _ (pow_nonneg hr.le t), ENum.inf_add_inf]
      · rw [ENum.fin_div_fin _ _ (pow_pos hr t).ne', ENum.inf_add_fin]
    rw [hterm]
    exact ih (t + 1) hrest

theorem npvAux_nonneg (r : ℚ) (hr : 0 < 1 + r) : ∀ (S : List ENum) (t : Nat) (acc : ℚ),
    (∀ x ∈ S, jge x (ENum.fin 0) = true) → 0 ≤ acc →
    npvAux (ENum.fin r) S t (ENum.fin acc) = ENum.inf ∨
      ∃ s : ℚ, npvAux (ENum.fin r) S t (ENum.fin acc) = ENum.fin s ∧ 0 ≤ s ∧
        (0 < acc → 0 < s) ∧ ((∃ x ∈ S, jgt x (ENum.fin 0) = true) → 0 < s) := by
  intro S
  induction S with
  | nil =>
    intro t acc _ hacc
    exact Or.inr ⟨acc, rfl, hacc, fun h => h, by simp⟩
  | cons x rest ih =>
    intro t acc hall hacc
    have hx := hall x (by simp)
    have hrest : ∀ y ∈ rest, jge y (ENum.fin 0) = true := fun y hy => hall y (by simp [hy])
    have hppos : (0 : ℚ) < (1 + r) ^ t := pow_pos hr t
    rcases jge_fin_zero_cases x hx with rfl | ⟨qx, rfl, hqx⟩
    · have hstep : npvAux (ENum.fin r) (ENum.inf :: rest) t (ENum.fin acc) =
          npvAux (ENum.fin r) rest (t + 1) ENum.inf := by
        show npvAux _ rest (t + 1)
          (ENum.fin acc + ENum.inf / (ENum.fin 1 + ENum.fin r).pow t) = _
        rw [ENum.fin_add_fin, ENum.fin_pow, ENum.inf_div_fin _ hppos.le, ENum.fin_add_inf]
      rw [hstep]
      exact Or.inl (npvAux_inf r hr rest (t + 1) hrest)
    · have hstep : npvAux (ENum.fin r) (ENum.fin qx :: rest) t (ENum.fin acc) =
          npvAux (ENum.fin r) rest (t + 1) (ENum.fin (acc + qx / (1 + r) ^ t)) := by
        show npvAux _ rest (t + 1)
          (ENum.fin acc + ENum.fin qx / (ENum.fin 1 + ENum.fin r).pow t) = _
        rw [ENum.fin_add_fin, ENum.fin_pow, ENum.fin_div_fin _ _ hppos.ne', ENum.fin_add_fin]
      rw [hstep]
      have hd : 0 ≤ qx / (1 + r) ^ t := div_nonneg hqx hppos.le
      rcases ih (t + 1) (acc + qx / (1 + r) ^ t) hrest (by linarith) with hinf | ⟨s, hs, h0, hmono, hex⟩
      · exact Or.inl hinf
      · refine Or.inr ⟨s, hs, h0, fun haccp => hmono (by linarith), ?_⟩
        rintro ⟨y, hy, hygt⟩
        rcases List.mem_cons.mp hy with rfl | hyrest
        · have hqxp : 0 < qx := by simpa [jgt, jlt] using hygt
          exact hmono (by positivity)
        · exact hex ⟨y, hyrest, hygt⟩

/-- C3 (amended): if every element of the series is non-negative and at
least one is strictly positive, the solver finds no sign change and
returns NaN.  (The all-zero series must be excluded: there the NPV at
the lower bracket endpoint is exactly zero and `irr` returns `-0.9999`,
a finite rate — see the counterexample.) -/
theorem irr_nonneg_nan (S : List ENum)
    (hall : ∀ x ∈ S, jge x (ENum.fin 0) = true)
    (hpos : ∃ x ∈ S, jgt x (ENum.fin 0) = true) :
    irr S = ENum.nan := by
  simp only [irr, npv]
  have h1 : (0 : ℚ) < 1 + (-9999 / 10000) := by norm_num
  have h2 : (0 : ℚ) < 1 + 10 := by norm_num
  have h3 : (0 : ℚ) < 1 + 50 := by norm_num
  rcases npvAux_nonneg (-9999 / 10000) h1 S 0 0 hall le_rfl with hlo | ⟨s1, hlo, _, _, hs1⟩
  · rw [hlo]
    simp [ENum.isFinite]
  · have hs1p : 0 < s1 := hs1 hpos
    rcases npvAux_nonneg 10 h2 S 0 0 hall le_rfl with hhi | ⟨s2, hhi, _, _, hs2⟩
    · rw [hlo, hhi]
      simp [ENum.isFinite]
    · have hs2p : 0 < s2 := hs2 hpos
      rw [hlo, hhi]
      have hmul : (0 : ℚ) < s1 * s2 := mul_pos hs1p hs2p
      simp only [ENum.isFinite, Bool.not_true, Bool.or_self, Bool.false_eq_true, if_false]
      rw [if_neg (by simp [jeq, hs1p.ne']), if_neg (by simp [jeq, hs2p.ne']),
        if_pos (by rw [ENum.fin_mul_fin]; simp [jgt, jlt, hmul])]
      rcases npvAux_nonneg 50 h3 S 0 0 hall le_rfl with hf2 | ⟨s3, hf2, _, _, hs3⟩
      · rw [hf2]
        simp [ENum.isFinite]
      · have hs3p : 0 < s3 := hs3 hpos
        rw [hf2]
        have hmul3 : (0 : ℚ) < s1 * s3 := mul_pos hs1p hs3p
        rw [if_pos (by rw [ENum.fin_mul_fin]; simp [jgt, jlt, hmul3])]

/-- Closed instance of C3 (amended) at the specification's own example
`[100, 50, 50]`: all inflows, no sign change, NaN. -/
theorem irr_nonneg_nan_witness : irr [ENum.fin 100, ENum.fin 50, ENum.fin 50] = ENum.nan :=
  irr_nonneg_nan _ (by decide!) ⟨ENum.fin 100, by decide!, by decide!⟩

/-- Counterexample to C3 as stated: the all-zero series is non-negative
everywhere, yet `irr` returns the finite rate `-0.9999` (the NPV at the
lower bracket endpoint is exactly zero, and step 3 of the solver
returns that endpoint) instead of NaN. -/
theorem irr_allzero_cex :
    (∀ x ∈ [ENum.fin 0], jge x (ENum.fin 0) = true) ∧ irr [ENum.fin 0] ≠ ENum.nan := by
  constructor
  · decide!
  · decide!

theorem ENum.add_nan (x : ENum) : x + ENum.nan = ENum.nan := by
  cases x <;> rfl

theorem ENum.nan_add (x : ENum) : ENum.nan + x = ENum.nan := by
  cases x <;> rfl

theorem ENum.nan_div (x : ENum) : ENum.nan / x = ENum.nan := by
  cases x <;> rfl

theorem npvAux_nan_acc (rate : ENum) : ∀ (S : List ENum) (t : Nat),
    npvAux rate S t ENum.nan = ENum.nan := by
  intro S
  induction S with
  | nil => intro t; rfl
  | cons x rest ih =>
    intro t
    show npvAux rate rest (t + 1) (ENum.nan + x / (ENum.fin 1 + rate).pow t) = _
    rw [ENum.nan_add]
    exact ih (t + 1)

theorem npvAux_nan_mem (rate : ENum) : ∀ (S : List ENum) (t : Nat) (acc : ENum),
    ENum.nan ∈ S → npvAux rate S t acc = ENum.nan := by
  intro S
  induction S with
  | nil => intro t acc h; cases h
  | cons x rest ih =>
    intro t acc hmem
    rcases List.mem_cons.mp hmem with rfl | hrest
    · show npvAux rate rest (t + 1) (acc + ENum.nan / (ENum.fin 1 + rate).pow t) = _
      rw [ENum.nan_div, ENum.add_nan]
      exact npvAux_nan_acc rate rest (t + 1)
    · exact ih (t + 1) _ hrest

theorem npv_nan_mem (rate : ENum) (S : List ENum) (h : ENum.nan ∈ S) :
    npv rate S = ENum.nan :=
  npvAux_nan_mem rate S 0 (ENum.fin 0) h

theorem dcfAux_nan_mem (rate : ENum) : ∀ (S : List ENum) (t : Nat),
    ENum.nan ∈ S → ENum.nan ∈ dcfAux rate S t := by
  intro S
  induction S with
  | nil => intro t h; cases h
  | cons x rest ih =>
    intro t hmem
    rcases List.mem_cons.mp hmem with rfl | hrest
    · show ENum.nan ∈ ENum.nan / (ENum.fin 1 + rate).pow t :: _
      rw [ENum.nan_div]
      exact List.mem_cons_self _ _
    · exact List.mem_cons_of_mem _ (ih (t + 1) hrest)

theorem irr_nan_mem (S : List ENum) (h : ENum.nan ∈ S) : irr S = ENum.nan := by
  simp only [irr]
  rw [npv_nan_mem _ _ h]
  simp [ENum.isFinite]

/-- C9 (amended): the engine functions are total and let non-finite
values flow through unclamped — a NaN element poisons `netPresentValue`
and appears untouched in the discounted series, the zero divisor at
rate `-100%` turns a positive flow into `+Infinity`, and a NaN element
makes `irr` fail with NaN — with the single exception of
`buildCashflows` on `years = +Infinity`, whose loop `t <= years` never
exits (the counterexample): on every other horizon it returns a
series. -/
theorem engine_totality_propagation :
    (∀ p : ParamsE, p.years ≠ ENum.inf → ∃ l, buildCashflowsE p = some l) ∧
    (∀ (rate : ENum) (S : List ENum), ENum.nan ∈ S → npv rate S = ENum.nan) ∧
    (∀ (rate : ENum) (S : List ENum), ENum.nan ∈ S →
      ENum.nan ∈ discountedCashflows rate S) ∧
    (∀ (c : ENum) (q : ℚ) (S : List ENum), 0 < q →
      (discountedCashflows (ENum.fin (-1)) (c :: ENum.fin q :: S))[1]? = some ENum.inf) ∧
    (∀ S : List ENum, ENum.nan ∈ S → irr S = ENum.nan) := by
  refine ⟨?_, npv_nan_mem, fun rate S h => dcfAux_nan_mem rate S 0 h, ?_, irr_nan_mem⟩
  · intro p hp
    obtain ⟨n, hn⟩ : ∃ n, loopCount p.years = some n := by
      cases hy : p.years with
      | fin q => exact ⟨_, rfl⟩
      | inf => exact absurd hy hp
      | ninf => exact ⟨0, rfl⟩
      | nan => exact ⟨0, rfl⟩
    exact ⟨(-(p.capGeo + p.capInd + p.capPv) + p.benefitTax) ::
      List.replicate n p.benefitEnergy, by simp [buildCashflowsE, hn]⟩
  · intro c q S hq
    have hdiv : ENum.fin q / ENum.fin 0 = ENum.inf := by
      show ENum.div _ _ = _
      simp [ENum.div, hq.ne', hq]
    have hpow : (ENum.fin 1 + ENum.fin (-1)).pow 1 = ENum.fin 0 := by
      rw [ENum.fin_add_fin, ENum.fin_pow]
      norm_num
    show (_ :: dcfAux (ENum.fin (-1)) (ENum.fin q :: S) 1)[1]? = _
    rw [List.getElem?_cons_succ]
    show (ENum.fin q / (ENum.fin 1 + ENum.fin (-1)).pow 1 :: _)[0]? = _
    rw [hpow, hdiv, List.getElem?_cons_zero]

/-- Closed instance of C9 (amended): a finite horizon builds a series;
NaN poisons `npv`, survives in `discountedCashflows`, and fails `irr`;
and at rate `-100%` the positive flow `3` discounts to `+Infinity`. -/
theorem engine_totality_propagation_witness :
    (∃ l, buildCashflowsE ⟨ENum.fin 0, ENum.fin 0, ENum.fin 0, ENum.fin 0, ENum.fin 0,
        ENum.fin 1⟩ = some l) ∧
    npv (ENum.fin 0) [ENum.fin 1, ENum.nan] = ENum.nan ∧
    ENum.nan ∈ discountedCashflows (ENum.fin 0) [ENum.fin 1, ENum.nan] ∧
    (discountedCashflows (ENum.fin (-1)) [ENum.fin 5, ENum.fin 3])[1]? = some ENum.inf ∧
    irr [ENum.fin 1, ENum.nan] = ENum.nan :=
  ⟨engine_totality_propagation.1 _ (by decide!),
    engine_totality_propagation.2.1 _ _ (by decide!),
    engine_totality_propagation.2.2.1 _ _ (by decide!),
    engine_totality_propagation.2.2.2.1 (ENum.fin 5) 3 [] (by norm_num),
    engine_totality_propagation.2.2.2.2 _ (by decide!)⟩

/-- Counterexample to C9 as stated: on `years = +Infinity` the loop
`for (let t = 1; t <= years; t++)` of `buildCashflows` never exits, so
the function does not return a value; in the embedding the
non-terminating run is the `none` result of `buildCashflowsE`. -/
theorem buildCashflowsE_inf_cex :
    buildCashflowsE ⟨ENum.fin 0, ENum.fin 0, ENum.fin 0, ENum.fin 0, ENum.fin 0,
      ENum.inf⟩ = none := rfl

theorem npvAux_fin_of_all_fin (r : ℚ) (hr : 1 + r ≠ 0) : ∀ (S : List ENum) (t : Nat) (acc : ℚ),
    (∀ x ∈ S, ∃ qx : ℚ, x = ENum.fin qx) →
    ∃ qq : ℚ, npvAux (ENum.fin r) S t (ENum.fin acc) = ENum.fin qq := by
  intro S
  induction S with
  | nil => intro t acc _; exact ⟨acc, rfl⟩
  | cons x rest ih =>
    intro t acc hall
    obtain ⟨qx, rfl⟩ := hall x (by simp)
    have hrest : ∀ y ∈ rest, ∃ qy : ℚ, y = ENum.fin qy := fun y hy => hall y (by simp [hy])
    have hpne : ((1 + r) ^ t : ℚ) ≠ 0 := pow_ne_zero t hr
    have hstep : npvAux (ENum.fin r) (ENum.fin qx :: rest) t (ENum.fin acc) =
        npvAux (ENum.fin r) rest (t + 1) (ENum.fin (acc + qx / (1 + r) ^ t)) := by
      show npvAux _ rest (t + 1)
        (ENum.fin acc + ENum.fin qx / (ENum.fin 1 + ENum.fin r).pow t) = _
      rw [ENum.fin_add_fin, ENum.fin_pow, ENum.fin_div_fin _ _ hpne, ENum.fin_add_fin]
    rw [hstep]
    exact ih (t + 1) _ hrest

theorem npv_fin_of_all_fin (r : ℚ) (hr : 1 + r ≠ 0) (S : List ENum)
    (hS : ∀ x ∈ S, ∃ qx : ℚ, x = ENum.fin qx) :
    ∃ qq : ℚ, npv (ENum.fin r) S = ENum.fin qq :=
  npvAux_fin_of_all_fin r hr S 0 0 hS

theorem irrLoop_bracket (f : ℚ → ENum) : ∀ (n : Nat) (lo hi qlo qhi q : ℚ),
    f lo = ENum.fin qlo → f hi = ENum.fin qhi → lo ≤ hi → qlo * qhi ≤ 0 →
    irrLoop f n lo hi (ENum.fin qlo) (ENum.fin qhi) = ENum.fin q →
    (∃ qm, f q = ENum.fin qm ∧ |qm| < 1 / 100000000) ∨
    (∃ a b qa qb : ℚ, a ≤ q ∧ q ≤ b ∧ b - a ≤ (hi - lo) / 2 ^ n ∧
      f a = ENum.fin qa ∧ f b = ENum.fin qb ∧ qa * qb ≤ 0) := by
  intro n
  induction n with
  | zero =>
    intro lo hi qlo qhi q hflo hfhi hle hsign hrun
    rw [irrLoop, ENum.fin.injEq] at hrun
    exact Or.inr ⟨lo, hi, qlo, qhi, by linarith, by linarith, by norm_num, hflo, hfhi, hsign⟩
  | succ n ih =>
    intro lo hi qlo qhi q hflo hfhi hle hsign hrun
    simp only [irrLoop] at hrun
    cases hfm : f ((lo + hi) / 2) with
    | nan => rw [hfm] at hrun; simp [ENum.isFinite] at hrun
    | inf => rw [hfm] at hrun; simp [ENum.isFinite] at hrun
    | ninf => rw [hfm] at hrun; simp [ENum.isFinite] at hrun
    | fin qm =>
      rw [hfm] at hrun
      simp only [ENum.isFinite, Bool.not_true, Bool.false_eq_true, if_false] at hrun
      by_cases htol : jlt (ENum.fin qm).abs (ENum.fin (1 / 100000000)) = true
      · rw [if_pos htol, ENum.fin.injEq] at hrun
        subst hrun
        exact Or.inl ⟨qm, hfm, by simpa [ENum.abs, jlt] using htol⟩
      · rw [if_neg htol] at hrun
        have hw : ∀ m : Nat, ((lo + hi) / 2 - lo) / 2 ^ m = (hi - lo) / 2 ^ (m + 1) := by
          intro m
          rw [pow_succ]
          field_simp
          ring
        have hw2 : ∀ m : Nat, (hi - (lo + hi) / 2) / 2 ^ m = (hi - lo) / 2 ^ (m + 1) := by
          intro m
          rw [pow_succ]
          field_simp
          ring
        by_cases hbr : jle (ENum.fin qlo * ENum.fin qm) (ENum.fin 0) = true
        · rw [if_pos hbr] at hrun
          have hsign2 : qlo * qm ≤ 0 := by
            rw [ENum.fin_mul_fin] at hbr
            simpa [jle] using hbr
          rcases ih lo ((lo + hi) / 2) qlo qm q hflo hfm (by linarith) hsign2 hrun with
            hL | ⟨a, b, qa, qb, h1, h2, h3, h4, h5, h6⟩
          · exact Or.inl hL
          · refine Or.inr ⟨a, b, qa, qb, h1, h2, ?_, h4, h5, h6⟩
            rw [hw n] at h3
            exact h3
        · rw [if_neg hbr] at hrun
          have hprod : 0 < qlo * qm := by
            rw [ENum.fin_mul_fin] at hbr
            have := hbr
            simp only [jle, decide_eq_true_eq] at this
            exact lt_of_not_le this
          have hsign2 : qm * qhi ≤ 0 := by
            by_contra hcon
            push_neg at hcon
            nlinarith [mul_pos hprod hcon, hsign, sq_nonneg qm]
          rcases ih ((lo + hi) / 2) hi qm qhi q hfm hfhi (by linarith) hsign2 hrun with
            hL | ⟨a, b, qa, qb, h1, h2, h3, h4, h5, h6⟩
          · exact Or.inl hL
          · refine Or.inr ⟨a, b, qa, qb, h1, h2, ?_, h4, h5, h6⟩
            rw [hw2 n] at h3
            exact h3

/-- C1 (amended): for a one-sign-change series (negative period 0,
constant positive inflows), a finite rate returned by `irr` either
carries an NPV already below the solver's own `1e-8` tolerance
(convergence, or an exactly-zero bracket endpoint), or — when the
120-iteration budget ran out — lies inside a sign-change bracket of
width at most `51 / 2^120`; the unconditional `1e-6` residual bound of
the claim fails on budget exhaustion (see the counterexample). -/
theorem irr_roundtrip_bracket (a c : ℚ) (n : Nat) (S : List ENum) (q : ℚ)
    (hS : S = ENum.fin a :: List.replicate n (ENum.fin c))
    (ha : a < 0) (hc : 0 < c) (hn : 1 ≤ n)
    (hirr : irr S = ENum.fin q) :
    (∃ qm, npv (ENum.fin q) S = ENum.fin qm ∧ |qm| < 1 / 100000000) ∨
    (∃ lo hi qlo qhi : ℚ, lo ≤ q ∧ q ≤ hi ∧ hi - lo ≤ 51 / 2 ^ 120 ∧
      npv (ENum.fin lo) S = ENum.fin qlo ∧ npv (ENum.fin hi) S = ENum.fin qhi ∧
      qlo * qhi ≤ 0) := by
  have hallfin : ∀ x ∈ S, ∃ qx : ℚ, x = ENum.fin qx := by
    subst hS
    intro x hx
    rcases List.mem_cons.mp hx with rfl | hx2
    · exact ⟨a, rfl⟩
    · exact ⟨c, List.eq_of_mem_replicate hx2⟩
  obtain ⟨qlo, hqlo⟩ := npv_fin_of_all_fin (-9999 / 10000) (by norm_num) S hallfin
  obtain ⟨qhi, hqhi⟩ := npv_fin_of_all_fin 10 (by norm_num) S hallfin
  obtain ⟨q50, hq50⟩ := npv_fin_of_all_fin 50 (by norm_num) S hallfin
  simp only [irr] at hirr
  rw [hqlo, hqhi] at hirr
  simp only [ENum.isFinite, Bool.not_true, Bool.or_self, Bool.false_eq_true, if_false]
    at hirr
  by_cases hz1 : jeq (ENum.fin qlo) (ENum.fin 0) = true
  · rw [if_pos hz1, ENum.fin.injEq] at hirr
    subst hirr
    have : qlo = 0 := by simpa [jeq] using hz1
    exact Or.inl ⟨qlo, hqlo, by rw [this]; norm_num⟩
  · rw [if_neg hz1] at hirr
    by_cases hz2 : jeq (ENum.fin qhi) (ENum.fin 0) = true
    · rw [if_pos hz2, ENum.fin.injEq] at hirr
      subst hirr
      have : qhi = 0 := by simpa [jeq] using hz2
      exact Or.inl ⟨qhi, hqhi, by rw [this]; norm_num⟩
    · rw [if_neg hz2] at hirr
      have hwidth1 : ((10 : ℚ) - (-9999 / 10000)) / 2 ^ 120 ≤ 51 / 2 ^ 120 := by
        apply div_le_div_of_nonneg_right ?_ (by positivity)
        norm_num
      have hwidth2 : ((50 : ℚ) - (-9999 / 10000)) / 2 ^ 120 ≤ 51 / 2 ^ 120 := by
        apply div_le_div_of_nonneg_right ?_ (by positivity)
        norm_num
      by_cases hg : jgt (ENum.fin qlo * ENum.fin qhi) (ENum.fin 0) = true
      · rw [if_pos hg, hq50] at hirr
        by_cases hg2 : jgt (ENum.fin qlo * ENum.fin q50) (ENum.fin 0) = true
        · rw [if_pos (by simp [ENum.isFinite, hg2])] at hirr
          simp at hirr
        · rw [if_neg (by simp [ENum.isFinite, hg2])] at hirr
          have hsign : qlo * q50 ≤ 0 := by
            rw [ENum.fin_mul_fin] at hg2
            have := hg2
            simp only [jgt, jlt, decide_eq_true_eq] at this
            exact le_of_not_lt this
          rcases irrLoop_bracket _ 120 _ _ _ _ q hqlo hq50 (by norm_num) hsign hirr with
            hL | ⟨lo2, hi2, qa, qb, h1, h2, h3, h4, h5, h6⟩
          · exact Or.inl hL
          · exact Or.inr ⟨lo2, hi2, qa, qb, h1, h2, by linarith, h4, h5, h6⟩
      · rw [if_neg hg] at hirr
        have hsign : qlo * qhi ≤ 0 := by
          rw [ENum.fin_mul_fin] at hg
          have := hg
          simp only [jgt, jlt, decide_eq_true_eq] at this
          exact le_of_not_lt this
        rcases irrLoop_bracket _ 120 _ _ _ _ q hqlo hqhi (by norm_num) hsign hirr with
          hL | ⟨lo2, hi2, qa, qb, h1, h2, h3, h4, h5, h6⟩
        · exact Or.inl hL
        · exact Or.inr ⟨lo2, hi2, qa, qb, h1, h2, by linarith, h4, h5, h6⟩

/-- Closed instance of C1 (amended) at `[-10000, 1]`: the solver
returns `-0.9999` (a zero of the NPV), landing in the first disjunct. -/
theorem irr_roundtrip_bracket_witness :
    (∃ qm, npv (ENum.fin (-9999 / 10000)) [ENum.fin (-10000), ENum.fin 1] = ENum.fin qm ∧
      |qm| < 1 / 100000000) ∨
    (∃ lo hi qlo qhi : ℚ, lo ≤ (-9999 / 10000 : ℚ) ∧ (-9999 / 10000 : ℚ) ≤ hi ∧
      hi - lo ≤ 51 / 2 ^ 120 ∧
      npv (ENum.fin lo) [ENum.fin (-10000), ENum.fin 1] = ENum.fin qlo ∧
      npv (ENum.fin hi) [ENum.fin (-10000), ENum.fin 1] = ENum.fin qhi ∧
      qlo * qhi ≤ 0) :=
  irr_roundtrip_bracket (-10000) 1 1 _ (-9999 / 10000) rfl (by norm_num) (by norm_num)
    le_rfl (by decide!)

/-- Counterexample to C1 as stated: on the one-sign-change series
`[-10^40, 2·10^36]` the solver exhausts its 120 iterations (the NPV is
so steep near the root that the midpoint value never meets the `1e-8`
test) and returns the final midpoint, a finite rate whose NPV is about
`1.4·10^8` — not within `1e-6` of zero. -/
theorem irr_roundtrip_cex :
    [ENum.fin (-(10 ^ 40)), ENum.fin (2 * 10 ^ 36)] =
      ENum.fin (-(10 ^ 40)) :: List.replicate 1 (ENum.fin (2 * 10 ^ 36)) ∧
    (-(10 ^ 40) : ℚ) < 0 ∧ (0 : ℚ) < 2 * 10 ^ 36 ∧
    (irr [ENum.fin (-(10 ^ 40)), ENum.fin (2 * 10 ^ 36)]).isFinite = true ∧
    jgt (ENum.abs (npv (irr [ENum.fin (-(10 ^ 40)), ENum.fin (2 * 10 ^ 36)])
        [ENum.fin (-(10 ^ 40)), ENum.fin (2 * 10 ^ 36)]))
      (ENum.fin (1 / 1000000)) = true :=
  ⟨rfl, by norm_num, by norm_num, by decide!, by decide!⟩
